import Mathlib

/-!
Verification of the dependencies page component (src/app/pages/deps/[...path].vue).

The script of that component is embedded shallowly: every computed value becomes a
pure Lean function of the reactive inputs it reads, nullable values become Option,
JavaScript arrays become lists, and JavaScript string truthiness is made explicit.
The response types imported from the shared types module are not part of the provided
sources and are modelled from the specification, as is the host locale comparator.
-/

/-- Result of parsing the catch-all route segments: package name and nullable version. -/
structure ParsedRoute where
  packageName : String
  version : Option String
  deriving Repr, DecidableEq

/-- JavaScript Array.prototype.indexOf specialised to string arrays: the index of the
first occurrence of t in xs, or -1 when t is absent. -/
def jsIndexOf : List String → String → Int
  | [], _ => -1
  | x :: xs, t =>
    if x = t then 0
    else
      let r := jsIndexOf xs t
      if r = -1 then -1 else r + 1

/-- JavaScript Array.prototype.join with separator "/" at the character level. -/
def joinWithSlashChars : List (List Char) → List Char
  | [] => []
  | [x] => x
  | x :: y :: rest => x ++ '/' :: joinWithSlashChars (y :: rest)

/-- segments.join("/") from the source. -/
def joinSlash (xs : List String) : String :=
  String.mk (joinWithSlashChars (xs.map String.data))

/-- JavaScript String.prototype.split("/") at the character level: splits at every
slash and keeps empty pieces; the split of the empty string is [[]], matching the
JavaScript result [""]. -/
def splitOnSlashChars : List Char → List (List Char)
  | [] => [[]]
  | c :: cs =>
    match splitOnSlashChars cs with
    | [] => [[]]
    | r :: rs => if c = '/' then [] :: r :: rs else (c :: r) :: rs

/-- packageName.split("/") from the source. -/
def splitSlash (s : String) : List String :=
  (splitOnSlashChars s.data).map String.mk

/-- parsedRoute from the source: find the first "v" segment with indexOf; when it is
absent or has nothing after it, the whole path joined by slashes is the package name
and the version is null; otherwise the segments before the "v" joined by slashes are
the package name and the segment right after the "v" is the version. -/
def parsedRoute (segments : List String) : ParsedRoute :=
  let vIndex := jsIndexOf segments "v"
  if vIndex = -1 ∨ vIndex ≥ (segments.length : Int) - 1 then
    { packageName := joinSlash segments, version := none }
  else
    let packageName := joinSlash (segments.take vIndex.toNat)
    let afterVersion := segments.drop (vIndex.toNat + 1)
    { packageName := packageName, version := afterVersion.head? }

/-- Reference definition written from the wording of the specification, section 4.1:
locate the first literal occurrence of the token "v"; if it is absent or is the last
element, the whole sequence joined by "/" is the package name and the version is
null; otherwise the segments strictly before the first "v" joined by "/" form the
package name and the single segment immediately after that "v" is the version, any
further trailing segments being ignored. -/
def parsedRouteSpec (segments : List String) : ParsedRoute :=
  if "v" ∈ segments then
    if List.indexOf "v" segments = segments.length - 1 then
      { packageName := joinSlash segments, version := none }
    else
      { packageName := joinSlash (segments.take (List.indexOf "v" segments)),
        version := segments[List.indexOf "v" segments + 1]? }
  else
    { packageName := joinSlash segments, version := none }

/-- JavaScript truthiness of a string: truthy exactly when non-empty. -/
def strTruthy (s : String) : Bool := s != ""

/-- JavaScript truthiness of a nullable string: null is falsy, the empty string is
falsy, every other string is truthy. -/
def optTruthy : Option String → Bool
  | none => false
  | some s => s != ""

/-- The immediate option handed to the dependency fetch in the source, written there
as double negation of version.value; the external fetch layer issues the initial
request exactly when this flag is true. -/
def fetchImmediate (version : Option String) : Bool := optTruthy version

/-- Kernel of orgName on the character list of the package name: the guard
startsWith("@") is the first character being an at sign, and the regular expression
matching one or more non-slash characters after the at sign followed by a slash
succeeds exactly when the characters strictly between the at sign and the first
following slash are at least one, capturing them. -/
def orgNameChars : List Char → Option String
  | [] => none
  | c :: rest =>
    if c = '@' then
      let org := rest.takeWhile (fun x => x != '/')
      if 0 < org.length ∧ org.length < rest.length then some (String.mk org) else none
    else none

/-- orgName from the source. -/
def orgName (name : String) : Option String := orgNameChars name.data

/-- packageRoute from the source, reduced to the params.package list it builds: the
package name split on slashes, with "v" and the version pushed at the end when the
version argument is truthy. -/
def packageRoute (packageName : String) (ver : Option String) : List String :=
  let segments := splitSlash packageName
  match ver with
  | some v => if v != "" then segments ++ ["v", v] else segments
  | none => segments

/-- Modelled from the spec: DependencyRecord of the shared types module, which is not
among the provided sources; section 3 of the specification gives a name, a version, a
depth tag and an optional flag. -/
structure DependencyRecord where
  name : String
  version : String
  depth : String
  optional : Bool
  deriving Repr, DecidableEq

/-- Modelled from the spec: PackageDependenciesResponse of the shared types module,
which is not among the provided sources; section 3 of the specification gives a
direct count, a dependency sequence and a devDependencies mapping, the last one
possibly absent since the source guards for it. The mapping is modelled as its
ordered entry list, matching Object.entries. -/
structure PackageDependenciesResponse where
  direct : Nat
  dependencies : List DependencyRecord
  devDependencies : Option (List (String × String))
  deriving Repr, DecidableEq

/-- directDependencies from the source: the dependency sequence of the payload
filtered to the records whose depth equals "direct", or the empty list when there is
no payload. -/
def directDependencies (resp : Option PackageDependenciesResponse) : List DependencyRecord :=
  match resp with
  | some r => r.dependencies.filter (fun dep => dep.depth == "direct")
  | none => []

/-- devDependencies from the source: the entries of the devDependencies mapping
sorted by name with the locale comparator. The comparator is host defined, so it is a
parameter lc here; Array.prototype.sort with a consistent comparator is a stable
sort, modelled by insertion sort on the relation that compares first components to at
most zero. -/
def devDependencies (lc : String → String → Int)
    (resp : Option PackageDependenciesResponse) : List (String × String) :=
  match resp with
  | some r =>
    match r.devDependencies with
    | some entries =>
      List.insertionSort (fun p q : String × String => lc p.1 q.1 ≤ 0) entries
    | none => []
  | none => []

/-- Strict lexicographic code point order on character lists. -/
def charListLt : List Char → List Char → Bool
  | [], [] => false
  | [], _ :: _ => true
  | _ :: _, [] => false
  | a :: as, b :: bs => if a < b then true else if b < a then false else charListLt as bs

/-- Modelled from the spec: a concrete stand-in for the host locale comparator, which
agrees with every common locale on the plain lowercase names of the specification
example: code point order mapped to minus one, zero and one. -/
def localeCompareModel (a b : String) : Int :=
  if charListLt a.data b.data then -1 else if charListLt b.data a.data then 1 else 0

/-- pageTitle from the source: the versioned template when both the package name and
the version are truthy, the generic copy otherwise. -/
def pageTitle (packageName : String) (version : Option String) : String :=
  match version with
  | some ver =>
    if strTruthy packageName && strTruthy ver then
      "Dependencies - " ++ packageName ++ "@" ++ ver ++ " - npmx"
    else "Dependencies - npmx"
  | none => "Dependencies - npmx"

/-- pageDescription from the source. -/
def pageDescription (packageName : String) (version : Option String) : String :=
  match version with
  | some ver =>
    if strTruthy packageName && strTruthy ver then
      "Browse dependency tree for " ++ packageName ++ "@" ++ ver
    else "Browse package dependencies"
  | none => "Browse package dependencies"

/-- canonicalUrl from the source. -/
def canonicalUrl (packageName : String) (version : Option String) : String :=
  match version with
  | some ver =>
    if strTruthy packageName && strTruthy ver then
      "https://npmx.dev/dependencies/" ++ packageName ++ "/v/" ++ ver
    else "https://npmx.dev/dependencies"
  | none => "https://npmx.dev/dependencies"

/-- The status values of the external fetch layer. -/
inductive FetchStatus where
  | idle
  | pending
  | success
  | error
  deriving Repr, DecidableEq

/-- The four template states of the page. -/
inductive RenderState where
  | noVersion
  | loading
  | fetchError
  | content
  deriving Repr, DecidableEq

/-- The template chain of the source in order: first the negated version test, then
the pending status test, then the error status test, then the payload test; the chain
has no final unconditional branch, so none of the four blocks renders when every test
fails. -/
def renderState (version : Option String) (status : FetchStatus)
    (payload : Option PackageDependenciesResponse) : Option RenderState :=
  if !optTruthy version then some RenderState.noVersion
  else if status == FetchStatus.pending then some RenderState.loading
  else if status == FetchStatus.error then some RenderState.fetchError
  else if payload.isSome then some RenderState.content
  else none

/-- A version separator in the sense of the parser: a "v" token with at least one
segment after it. -/
def hasVSep (segments : List String) : Prop :=
  "v" ∈ segments ∧ List.indexOf "v" segments + 1 < segments.length

instance (segments : List String) : Decidable (hasVSep segments) := by
  unfold hasVSep
  infer_instance

example : parsedRoute ["nuxt", "v", "4.2.0"] = { packageName := "nuxt", version := some "4.2.0" } := by
  decide

example : parsedRoute ["@nuxt", "kit", "v", "1.0.0"] = { packageName := "@nuxt/kit", version := some "1.0.0" } := by
  decide

example : parsedRoute ["nuxt", "v"] = { packageName := "nuxt/v", version := none } := by
  decide

example : parsedRoute [] = { packageName := "", version := none } := by
  decide

example : orgName "@foo/bar" = some "foo" := by decide

example : orgName "foo" = none := by decide

example : orgName "@foo" = none := by decide

example : orgName "@/x" = none := by decide

example :
    devDependencies localeCompareModel
      (some { direct := 0, dependencies := [],
              devDependencies := some [("b", "1.0.0"), ("a", "2.0.0")] }) =
      [("a", "2.0.0"), ("b", "1.0.0")] := by decide

example : packageRoute "@nuxt/kit" (some "1.0.0") = ["@nuxt", "kit", "v", "1.0.0"] := by decide

example : renderState (some "1.0.0") FetchStatus.success none = none := by decide

example : pageTitle "nuxt" (some "4.2.0") = "Dependencies - nuxt@4.2.0 - npmx" := by decide

theorem jsIndexOf_spec (xs : List String) (t : String) :
    (t ∉ xs ∧ jsIndexOf xs t = -1) ∨
    (t ∈ xs ∧ jsIndexOf xs t = (List.indexOf t xs : Int)) := by
  induction xs with
  | nil => left; simp [jsIndexOf]
  | cons x xs ih =>
    by_cases hx : x = t
    · right
      subst hx
      exact ⟨List.mem_cons_self x xs, by simp [jsIndexOf, List.indexOf_cons_self]⟩
    · rcases ih with ⟨hnm, he⟩ | ⟨hm, he⟩
      · left
        refine ⟨?_, ?_⟩
        · intro hmem
          rcases List.mem_cons.mp hmem with h | h
          · exact hx h.symm
          · exact hnm h
        · simp [jsIndexOf, hx, he]
      · right
        refine ⟨List.mem_cons_of_mem x hm, ?_⟩
        have hnn : (0 : Int) ≤ (List.indexOf t xs : Int) := Int.ofNat_nonneg _
        have hne : jsIndexOf xs t ≠ -1 := by omega
        have hcons : List.indexOf t (x :: xs) = (List.indexOf t xs) + 1 :=
          List.indexOf_cons_ne xs hx
        simp only [jsIndexOf, if_neg hx, hne, if_false, he, hcons]
        omega

theorem jsIndexOf_of_not_mem {xs : List String} {t : String} (h : t ∉ xs) :
    jsIndexOf xs t = -1 :=
  ((jsIndexOf_spec xs t).resolve_right (fun hc => h hc.1)).2

theorem jsIndexOf_of_mem {xs : List String} {t : String} (h : t ∈ xs) :
    jsIndexOf xs t = (List.indexOf t xs : Int) :=
  ((jsIndexOf_spec xs t).resolve_left (fun hc => hc.1 h)).2

theorem parsedRoute_of_not_mem {segments : List String} (h : "v" ∉ segments) :
    parsedRoute segments = { packageName := joinSlash segments, version := none } := by
  unfold parsedRoute
  rw [jsIndexOf_of_not_mem h]
  simp

theorem parsedRoute_of_last {segments : List String} (hm : "v" ∈ segments)
    (hl : List.indexOf "v" segments = segments.length - 1) :
    parsedRoute segments = { packageName := joinSlash segments, version := none } := by
  have hlen : 0 < segments.length := List.length_pos.mpr (List.ne_nil_of_mem hm)
  have hc : ((List.indexOf "v" segments : Int) = -1 ∨
      (List.indexOf "v" segments : Int) ≥ (segments.length : Int) - 1) := by
    right
    omega
  simp only [parsedRoute, jsIndexOf_of_mem hm]
  rw [if_pos hc]

theorem parsedRoute_of_sep {segments : List String} (hm : "v" ∈ segments)
    (hl : List.indexOf "v" segments + 1 < segments.length) :
    parsedRoute segments =
      { packageName := joinSlash (segments.take (List.indexOf "v" segments)),
        version := segments[List.indexOf "v" segments + 1]? } := by
  have hcond : ¬ ((List.indexOf "v" segments : Int) = -1 ∨
      (List.indexOf "v" segments : Int) ≥ (segments.length : Int) - 1) := by
    omega
  have htn : ((List.indexOf "v" segments : Int)).toNat = List.indexOf "v" segments := by
    omega
  simp only [parsedRoute, jsIndexOf_of_mem hm, if_neg hcond, htn]
  rw [List.head?_eq_getElem?, List.getElem?_drop]

theorem joinSlash_nil : joinSlash [] = "" := rfl

/-- C1: for every ordered sequence of path segments, if the token "v" does not occur
or its first occurrence is the last element, the parsed result is all segments joined
by "/" with a null version; otherwise the package name is the segments strictly
before the first "v" joined by "/" and the version is the single segment immediately
after that "v", any further trailing segments being ignored. The parser of the source
agrees with this reference definition everywhere, and on the example route of the
specification it yields the scoped package name with its version. -/
theorem C1_route_parser_reference :
    (∀ segments : List String, parsedRoute segments = parsedRouteSpec segments) ∧
    parsedRoute ["@nuxt", "kit", "v", "1.0.0"] =
      { packageName := "@nuxt/kit", version := some "1.0.0" } := by
  constructor
  · intro segments
    by_cases hm : "v" ∈ segments
    · have hlt : List.indexOf "v" segments < segments.length :=
        List.indexOf_lt_length.mpr hm
      by_cases hl : List.indexOf "v" segments = segments.length - 1
      · rw [parsedRoute_of_last hm hl]
        simp [parsedRouteSpec, hm, hl]
      · have hsep : List.indexOf "v" segments + 1 < segments.length := by omega
        rw [parsedRoute_of_sep hm hsep]
        simp [parsedRouteSpec, hm, hl]
    · rw [parsedRoute_of_not_mem hm]
      simp [parsedRouteSpec, hm]
  · decide

/-- C6: the parsed package name is non-empty only when at least one segment precedes
the version separator or the segments are non-empty with no separator at all, and
the parsed version is null whenever no "v" segment is found or the first "v" is the
final segment. -/
theorem C6_parse_invariant (segments : List String) :
    ((parsedRoute segments).packageName ≠ "" →
      (hasVSep segments ∧ 0 < List.indexOf "v" segments) ∨
      (¬ hasVSep segments ∧ segments ≠ [])) ∧
    (("v" ∉ segments ∨ List.indexOf "v" segments = segments.length - 1) →
      (parsedRoute segments).version = none) := by
  by_cases hs : hasVSep segments
  · obtain ⟨hm, hl⟩ := hs
    rw [parsedRoute_of_sep hm hl]
    constructor
    · intro hne
      left
      refine ⟨⟨hm, hl⟩, ?_⟩
      by_contra h0
      have hz : List.indexOf "v" segments = 0 := by omega
      rw [hz, List.take_zero] at hne
      exact hne joinSlash_nil
    · intro hor
      rcases hor with h | h
      · exact absurd hm h
      · have hlt : List.indexOf "v" segments < segments.length :=
          List.indexOf_lt_length.mpr hm
        omega
  · have hres : parsedRoute segments =
        { packageName := joinSlash segments, version := none } := by
      by_cases hm : "v" ∈ segments
      · have hlt : List.indexOf "v" segments < segments.length :=
          List.indexOf_lt_length.mpr hm
        have hl : List.indexOf "v" segments = segments.length - 1 := by
          unfold hasVSep at hs
          push_neg at hs
          have := hs hm
          omega
        exact parsedRoute_of_last hm hl
      · exact parsedRoute_of_not_mem hm
    rw [hres]
    refine ⟨?_, fun _ => rfl⟩
    intro hne
    right
    refine ⟨hs, ?_⟩
    rintro rfl
    exact hne joinSlash_nil

theorem C6_parse_invariant_witness :
    ((hasVSep ["nuxt"] ∧ 0 < List.indexOf "v" ["nuxt"]) ∨
      (¬ hasVSep ["nuxt"] ∧ ["nuxt"] ≠ ([] : List String))) ∧
    (parsedRoute ["nuxt"]).version = none :=
  ⟨(C6_parse_invariant ["nuxt"]).1 (by decide),
   (C6_parse_invariant ["nuxt"]).2 (by decide)⟩

/-- C2 counterexample: with a resolved version, a successful status and an absent
payload every test of the template chain fails, so none of the four states renders
and the claimed "exactly one state" fails for this combination. -/
theorem C2_counterexample : renderState (some "1.0.0") FetchStatus.success none = none := by
  decide

/-- C2 amended: at most one of the four states renders, chosen in the priority order
no-version, loading, error, content; the no-version state is shown exactly when the
version is null or empty, regardless of any stale status; with a truthy version the
loading state is shown exactly on a pending status, the error state exactly on an
error status, the content state exactly when a payload is present with a status that
is neither pending nor error; when the version is truthy, the status neither pending
nor error and the payload absent, no state renders; in particular a null version
always shows the no-version state. -/
theorem C2_render_state (v : Option String) (s : FetchStatus)
    (p : Option PackageDependenciesResponse) :
    (renderState v s p = some RenderState.noVersion ↔ optTruthy v = false) ∧
    (renderState v s p = some RenderState.loading ↔
      optTruthy v = true ∧ s = FetchStatus.pending) ∧
    (renderState v s p = some RenderState.fetchError ↔
      optTruthy v = true ∧ s ≠ FetchStatus.pending ∧ s = FetchStatus.error) ∧
    (renderState v s p = some RenderState.content ↔
      optTruthy v = true ∧ s ≠ FetchStatus.pending ∧ s ≠ FetchStatus.error ∧
        p.isSome = true) ∧
    (v = none → renderState v s p = some RenderState.noVersion) := by
  refine ⟨?_, ?_, ?_, ?_, fun h => by subst h; rfl⟩ <;>
    · unfold renderState
      rcases hv : optTruthy v <;> rcases s <;> rcases p <;> simp_all

theorem C2_render_state_witness :
    renderState none FetchStatus.pending none = some RenderState.noVersion :=
  (C2_render_state none FetchStatus.pending none).2.2.2.2 rfl

/-- C3: for every dependencies response, the derived direct dependency list contains
exactly the records whose depth field equals the string "direct", and it is a sublist
of the dependency sequence of the response, hence preserves its relative order. -/
theorem C3_direct_dependencies (r : PackageDependenciesResponse) :
    (∀ d : DependencyRecord,
      d ∈ directDependencies (some r) ↔ d ∈ r.dependencies ∧ d.depth = "direct") ∧
    (directDependencies (some r)).Sublist r.dependencies := by
  constructor
  · intro d
    simp [directDependencies, List.mem_filter]
  · exact List.filter_sublist r.dependencies

/-- C5: when the parsed version is null the immediate flag of the dependency fetch is
false, so the external fetch layer does not issue the request, and the flag is true
only when a version has been resolved. -/
theorem C5_conditional_fetch (segments : List String) :
    ((parsedRoute segments).version = none →
      fetchImmediate (parsedRoute segments).version = false) ∧
    (fetchImmediate (parsedRoute segments).version = true →
      ∃ ver, (parsedRoute segments).version = some ver) := by
  constructor
  · intro h
    rw [h]
    rfl
  · intro h
    rcases hv : (parsedRoute segments).version with _ | ver
    · rw [hv] at h
      simp [fetchImmediate, optTruthy] at h
    · exact ⟨ver, rfl⟩

theorem C5_conditional_fetch_witness :
    fetchImmediate (parsedRoute ["nuxt"]).version = false ∧
    ∃ ver, (parsedRoute ["nuxt", "v", "4.2.0"]).version = some ver :=
  ⟨(C5_conditional_fetch ["nuxt"]).1 (by decide),
   (C5_conditional_fetch ["nuxt", "v", "4.2.0"]).2 (by decide)⟩

/-- C7 counterexample: the package name made of an at sign immediately followed by a
slash starts with the at sign, and the substring strictly between the at sign and the
following slash is empty, so the claim predicts the empty organization string, but
the code yields null because the regular expression requires at least one character
before the slash. -/
theorem C7_counterexample :
    "@/x".data.head? = some '@' ∧ orgName "@/x" ≠ some "" ∧ orgName "@/x" = none := by
  decide

/-- C7 amended: when the package name does not start with an at sign the result is
null; when it starts with an at sign followed by at least one non-slash character and
then a slash, the result is the substring strictly between the at sign and the first
following slash; the scoped example yields its organization and the unscoped example
yields null. -/
theorem C7_org_extraction (name : String) :
    (name.data.head? ≠ some '@' → orgName name = none) ∧
    (∀ org rest : List Char, name.data = '@' :: (org ++ '/' :: rest) → org ≠ [] →
      '/' ∉ org → orgName name = some (String.mk org)) ∧
    orgName "@foo/bar" = some "foo" ∧ orgName "foo" = none := by
  refine ⟨?_, ?_, by decide, by decide⟩
  · intro h
    unfold orgName
    rcases hd : name.data with _ | ⟨c, rest⟩
    · rfl
    · rw [hd] at h
      have hc : c ≠ '@' := by
        intro hce
        exact h (by rw [hce, List.head?_cons])
      simp [orgNameChars, hc]
  · intro org rest hd hne hns
    unfold orgName
    rw [hd]
    have hpos : ∀ x ∈ org, (x != '/') = true := by
      intro x hx
      have : x ≠ '/' := fun he => hns (he ▸ hx)
      simpa [bne_iff_ne] using this
    have htw : (org ++ '/' :: rest).takeWhile (fun x => x != '/') = org := by
      rw [List.takeWhile_append_of_pos hpos]
      simp [List.takeWhile]
    have hlen : 0 < org.length ∧ org.length < (org ++ '/' :: rest).length := by
      constructor
      · exact List.length_pos.mpr hne
      · simp only [List.length_append, List.length_cons]
        omega
    simp [orgNameChars, htw, hlen]

theorem C7_org_extraction_witness : orgName "@scope/pkg" = some "scope" :=
  (C7_org_extraction "@scope/pkg").2.1 ['s', 'c', 'o', 'p', 'e'] ['p', 'k', 'g']
    (by decide) (by decide) (by decide)

/-- C10: for every package name that starts with an at sign but has no slash after
it, the extracted organization is null rather than the remainder of the string. -/
theorem C10_org_extraction_no_slash (name : String)
    (h1 : name.data.head? = some '@') (h2 : '/' ∉ name.data.drop 1) :
    orgName name = none := by
  unfold orgName
  rcases hd : name.data with _ | ⟨c, rest⟩
  · rfl
  · rw [hd] at h1 h2
    rw [List.head?_cons, Option.some.injEq] at h1
    subst h1
    have hrest : '/' ∉ rest := by
      simpa using h2
    have htw : rest.takeWhile (fun x => x != '/') = rest := by
      apply List.takeWhile_eq_self_iff.mpr
      intro x hx
      have : x ≠ '/' := fun he => hrest (he ▸ hx)
      simpa [bne_iff_ne] using this
    simp [orgNameChars, htw]

theorem C10_org_extraction_no_slash_witness : orgName "@foo" = none :=
  C10_org_extraction_no_slash "@foo" (by decide) (by decide)

theorem charListLt_asymm :
    ∀ {a b : List Char}, charListLt a b = true → charListLt b a = false := by
  intro a
  induction a with
  | nil =>
    intro b h
    cases b with
    | nil => simp [charListLt] at h
    | cons y ys => simp [charListLt]
  | cons x xs ih =>
    intro b h
    cases b with
    | nil => simp [charListLt] at h
    | cons y ys =>
      simp only [charListLt] at h ⊢
      rcases lt_trichotomy x y with hxy | hxy | hxy
      · simp [hxy, lt_asymm hxy]
      · subst hxy
        simp only [lt_irrefl, if_false] at h ⊢
        exact ih h
      · simp [hxy, lt_asymm hxy] at h

theorem charListLt_trans :
    ∀ {a b c : List Char}, charListLt a b = true → charListLt b c = true →
      charListLt a c = true := by
  intro a
  induction a with
  | nil =>
    intro b c hab hbc
    cases c with
    | nil =>
      cases b with
      | nil => simp [charListLt] at hab
      | cons y ys => simp [charListLt] at hbc
    | cons z zs => simp [charListLt]
  | cons x xs ih =>
    intro b c hab hbc
    cases b with
    | nil => simp [charListLt] at hab
    | cons y ys =>
      cases c with
      | nil => simp [charListLt] at hbc
      | cons z zs =>
        simp only [charListLt] at hab hbc ⊢
        rcases lt_trichotomy x y with hxy | hxy | hxy
        · rcases lt_trichotomy y z with hyz | hyz | hyz
          · simp [lt_trans hxy hyz]
          · subst hyz
            simp [hxy]
          · simp [lt_asymm hyz, hyz] at hbc
        · subst hxy
          rcases lt_trichotomy x z with hxz | hxz | hxz
          · simp [hxz]
          · subst hxz
            simp only [lt_irrefl, if_false] at hab hbc ⊢
            exact ih hab hbc
          · simp [lt_asymm hxz, hxz] at hbc
        · simp [lt_asymm hxy, hxy] at hab

theorem charListLt_eq_of_not_lt :
    ∀ {a b : List Char}, charListLt a b = false → charListLt b a = false → a = b := by
  intro a
  induction a with
  | nil =>
    intro b h1 h2
    cases b with
    | nil => rfl
    | cons y ys => simp [charListLt] at h1
  | cons x xs ih =>
    intro b h1 h2
    cases b with
    | nil => simp [charListLt] at h2
    | cons y ys =>
      simp only [charListLt] at h1 h2
      rcases lt_trichotomy x y with hxy | hxy | hxy
      · simp [hxy] at h1
      · subst hxy
        simp only [lt_irrefl, if_false] at h1 h2
        rw [ih h1 h2]
      · simp [hxy, lt_asymm hxy] at h2

theorem localeCompareModel_le_zero {a b : String} :
    localeCompareModel a b ≤ 0 ↔ charListLt b.data a.data = false := by
  unfold localeCompareModel
  cases hab : charListLt a.data b.data with
  | true =>
    have hba := charListLt_asymm hab
    simp [hab, hba]
  | false =>
    cases hba : charListLt b.data a.data with
    | true => simp [hab, hba]
    | false => simp [hab, hba]

theorem localeCompareModel_total (a b : String) :
    localeCompareModel a b ≤ 0 ∨ localeCompareModel b a ≤ 0 := by
  cases h : charListLt b.data a.data with
  | false => exact Or.inl (localeCompareModel_le_zero.mpr h)
  | true => exact Or.inr (localeCompareModel_le_zero.mpr (charListLt_asymm h))

theorem localeCompareModel_trans (a b c : String) :
    localeCompareModel a b ≤ 0 → localeCompareModel b c ≤ 0 →
      localeCompareModel a c ≤ 0 := by
  intro h1 h2
  rw [localeCompareModel_le_zero] at h1 h2 ⊢
  by_contra hca
  rw [Bool.not_eq_false] at hca
  cases hab : charListLt a.data b.data with
  | true =>
    have hcb := charListLt_trans hca hab
    rw [h2] at hcb
    exact Bool.false_ne_true hcb
  | false =>
    have heq := charListLt_eq_of_not_lt hab h1
    rw [heq] at hca
    rw [h2] at hca
    exact Bool.false_ne_true hca

/-- C4: for every consistent comparator and every dev dependency mapping, the derived
value is a permutation of the entry sequence of the mapping that is sorted ascending
by name under the comparator; with the concrete locale model the specification
example with names b and a sorts them ascending, keeping each version with its
name. -/
theorem C4_dev_dependencies (lc : String → String → Int)
    (htotal : ∀ a b, lc a b ≤ 0 ∨ lc b a ≤ 0)
    (htrans : ∀ a b c, lc a b ≤ 0 → lc b c ≤ 0 → lc a c ≤ 0)
    (k : Nat) (deps : List DependencyRecord) (entries : List (String × String)) :
    (devDependencies lc
      (some (PackageDependenciesResponse.mk k deps (some entries)))).Perm entries ∧
    List.Sorted (fun p q : String × String => lc p.1 q.1 ≤ 0)
      (devDependencies lc
        (some (PackageDependenciesResponse.mk k deps (some entries)))) ∧
    devDependencies localeCompareModel
      (some (PackageDependenciesResponse.mk 0 []
        (some [("b", "1.0.0"), ("a", "2.0.0")]))) =
      [("a", "2.0.0"), ("b", "1.0.0")] := by
  haveI : IsTotal (String × String) (fun p q => lc p.1 q.1 ≤ 0) :=
    ⟨fun p q => htotal p.1 q.1⟩
  haveI : IsTrans (String × String) (fun p q => lc p.1 q.1 ≤ 0) :=
    ⟨fun p q r hpq hqr => htrans p.1 q.1 r.1 hpq hqr⟩
  refine ⟨?_, ?_, by decide⟩
  · exact List.perm_insertionSort _ _
  · exact List.sorted_insertionSort _ _

theorem C4_dev_dependencies_witness :
    (devDependencies localeCompareModel
      (some (PackageDependenciesResponse.mk 0 []
        (some [("b", "1.0.0"), ("a", "2.0.0")])))).Perm
      [("b", "1.0.0"), ("a", "2.0.0")] ∧
    List.Sorted (fun p q : String × String => localeCompareModel p.1 q.1 ≤ 0)
      (devDependencies localeCompareModel
        (some (PackageDependenciesResponse.mk 0 []
          (some [("b", "1.0.0"), ("a", "2.0.0")])))) ∧
    devDependencies localeCompareModel
      (some (PackageDependenciesResponse.mk 0 []
        (some [("b", "1.0.0"), ("a", "2.0.0")]))) =
      [("a", "2.0.0"), ("b", "1.0.0")] :=
  C4_dev_dependencies localeCompareModel localeCompareModel_total
    localeCompareModel_trans 0 [] [("b", "1.0.0"), ("a", "2.0.0")]

theorem splitOnSlashChars_ne_nil (s : List Char) : splitOnSlashChars s ≠ [] := by
  cases s with
  | nil => simp [splitOnSlashChars]
  | cons c cs =>
    simp only [splitOnSlashChars]
    rcases h : splitOnSlashChars cs with _ | ⟨r, rs⟩
    · simp
    · by_cases hc : c = '/' <;> simp [hc]

theorem splitOnSlashChars_no_slash {s : List Char} (h : '/' ∉ s) :
    splitOnSlashChars s = [s] := by
  induction s with
  | nil => rfl
  | cons c cs ih =>
    have hc : c ≠ '/' := fun e => h (e ▸ List.mem_cons_self c cs)
    have hcs : '/' ∉ cs := fun m => h (List.mem_cons_of_mem c m)
    simp only [splitOnSlashChars, ih hcs]
    simp [hc]

theorem splitOnSlashChars_append {s : List Char} (t : List Char) (h : '/' ∉ s) :
    splitOnSlashChars (s ++ '/' :: t) = s :: splitOnSlashChars t := by
  induction s with
  | nil =>
    simp only [List.nil_append, splitOnSlashChars]
    rcases ht : splitOnSlashChars t with _ | ⟨r, rs⟩
    · exact absurd ht (splitOnSlashChars_ne_nil t)
    · simp
  | cons c cs ih =>
    have hc : c ≠ '/' := fun e => h (e ▸ List.mem_cons_self c cs)
    have hcs : '/' ∉ cs := fun m => h (List.mem_cons_of_mem c m)
    simp only [List.cons_append, splitOnSlashChars, List.append_eq]
    rw [ih hcs]
    simp [hc]

theorem split_join_chars (segs : List (List Char)) (h1 : segs ≠ [])
    (h2 : ∀ s ∈ segs, '/' ∉ s) :
    splitOnSlashChars (joinWithSlashChars segs) = segs := by
  induction segs with
  | nil => exact absurd rfl h1
  | cons x ys ih =>
    cases ys with
    | nil =>
      simp only [joinWithSlashChars]
      exact splitOnSlashChars_no_slash (h2 x (List.mem_cons_self x []))
    | cons y rest =>
      have hx : '/' ∉ x := h2 x (List.mem_cons_self x (y :: rest))
      have hrec : ∀ s ∈ y :: rest, '/' ∉ s :=
        fun s hs => h2 s (List.mem_cons_of_mem x hs)
      simp only [joinWithSlashChars]
      rw [splitOnSlashChars_append _ hx, ih (List.cons_ne_nil y rest) hrec]

theorem mk_data_eq (s : String) : String.mk s.data = s := by
  cases s
  rfl

theorem splitSlash_joinSlash (pre : List String) (h1 : pre ≠ [])
    (h2 : ∀ s ∈ pre, '/' ∉ s.data) :
    splitSlash (joinSlash pre) = pre := by
  unfold splitSlash joinSlash
  have hdata : (String.mk (joinWithSlashChars (pre.map String.data))).data =
      joinWithSlashChars (pre.map String.data) := rfl
  rw [hdata, split_join_chars (pre.map String.data) (by simpa using h1)
    (by intro s hs; rcases List.mem_map.mp hs with ⟨a, ha, rfl⟩; exact h2 a ha)]
  rw [List.map_map]
  have hid : (String.mk ∘ String.data) = id := funext mk_data_eq
  rw [hid, List.map_id]

/-- C9: for every non-empty segment list whose elements contain no slash and none of
which is the token "v", and every non-empty version string, parsing the segments
followed by "v" and the version and then building the package route from the parsed
values yields exactly the original segments followed by "v" and the version, while
parsing the segments alone and building the route with the null parsed version
yields exactly the original segments. -/
theorem C9_parse_build_round_trip (pre : List String) (ver : String)
    (h1 : pre ≠ []) (h2 : ∀ s ∈ pre, '/' ∉ s.data) (h3 : "v" ∉ pre) (h4 : ver ≠ "") :
    packageRoute (parsedRoute (pre ++ ["v", ver])).packageName
      (parsedRoute (pre ++ ["v", ver])).version = pre ++ ["v", ver] ∧
    packageRoute (parsedRoute pre).packageName (parsedRoute pre).version = pre := by
  constructor
  · have hidx : List.indexOf "v" (pre ++ ["v", ver]) = pre.length := by
      rw [List.indexOf_append_of_not_mem h3]
      simp [List.indexOf_cons_self]
    have hm : "v" ∈ pre ++ ["v", ver] := List.mem_append_right pre (by simp)
    have hsep : List.indexOf "v" (pre ++ ["v", ver]) + 1 <
        (pre ++ ["v", ver]).length := by
      rw [hidx]
      simp
    have htake : (pre ++ ["v", ver]).take pre.length = pre :=
      List.take_left pre ["v", ver]
    have hget : (pre ++ ["v", ver])[pre.length + 1]? = some ver := by
      rw [List.getElem?_append_right (by omega)]
      simp
    have hparse : parsedRoute (pre ++ ["v", ver]) =
        { packageName := joinSlash pre, version := some ver } := by
      rw [parsedRoute_of_sep hm hsep, hidx, htake, hget]
    rw [hparse]
    show packageRoute (joinSlash pre) (some ver) = pre ++ ["v", ver]
    have hb : (ver != "") = true := bne_iff_ne.mpr h4
    simp only [packageRoute, hb, if_true]
    rw [splitSlash_joinSlash pre h1 h2]
  · rw [parsedRoute_of_not_mem h3]
    show packageRoute (joinSlash pre) none = pre
    simp only [packageRoute]
    exact splitSlash_joinSlash pre h1 h2

theorem C9_parse_build_round_trip_witness :
    packageRoute (parsedRoute ["@nuxt", "kit", "v", "1.0.0"]).packageName
      (parsedRoute ["@nuxt", "kit", "v", "1.0.0"]).version =
      ["@nuxt", "kit", "v", "1.0.0"] ∧
    packageRoute (parsedRoute ["@nuxt", "kit"]).packageName
      (parsedRoute ["@nuxt", "kit"]).version = ["@nuxt", "kit"] :=
  C9_parse_build_round_trip ["@nuxt", "kit"] "1.0.0"
    (by decide) (by decide) (by decide) (by decide)

/-- C8 counterexample: the route segments ["v", "1.0.0"] parse to an empty package
name with a present version, and all three derived strings fall back to the generic
copy although the version is not absent, refuting the claimed fallback happening
exactly when the version is absent. -/
theorem C8_counterexample :
    parsedRoute ["v", "1.0.0"] = { packageName := "", version := some "1.0.0" } ∧
    pageTitle "" (some "1.0.0") = "Dependencies - npmx" ∧
    pageDescription "" (some "1.0.0") = "Browse package dependencies" ∧
    canonicalUrl "" (some "1.0.0") = "https://npmx.dev/dependencies" := by
  decide

/-- C8 amended: the page title, description and canonical URL are pure string
templates over package name and version; the generic copy is produced exactly when
the version is absent or empty or the package name is empty, and otherwise the
versioned templates over package name and version are produced. -/
theorem C8_seo_strings (p ver : String) :
    (pageTitle p none = "Dependencies - npmx" ∧
      pageDescription p none = "Browse package dependencies" ∧
      canonicalUrl p none = "https://npmx.dev/dependencies") ∧
    ((p = "" ∨ ver = "") →
      pageTitle p (some ver) = "Dependencies - npmx" ∧
      pageDescription p (some ver) = "Browse package dependencies" ∧
      canonicalUrl p (some ver) = "https://npmx.dev/dependencies") ∧
    (p ≠ "" → ver ≠ "" →
      pageTitle p (some ver) = "Dependencies - " ++ p ++ "@" ++ ver ++ " - npmx" ∧
      pageDescription p (some ver) =
        "Browse dependency tree for " ++ p ++ "@" ++ ver ∧
      canonicalUrl p (some ver) =
        "https://npmx.dev/dependencies/" ++ p ++ "/v/" ++ ver) := by
  refine ⟨⟨rfl, rfl, rfl⟩, ?_, ?_⟩
  · intro h
    have hc : (strTruthy p && strTruthy ver) = false := by
      rcases h with h | h <;> subst h <;> simp [strTruthy]
    refine ⟨?_, ?_, ?_⟩ <;> simp [pageTitle, pageDescription, canonicalUrl, hc]
  · intro hp hv
    have hc : (strTruthy p && strTruthy ver) = true := by
      simp [strTruthy, hp, hv]
    refine ⟨?_, ?_, ?_⟩ <;> simp [pageTitle, pageDescription, canonicalUrl, hc]

theorem C8_seo_strings_witness :
    pageTitle "nuxt" (some "4.2.0") = "Dependencies - nuxt@4.2.0 - npmx" ∧
    pageDescription "nuxt" (some "4.2.0") = "Browse dependency tree for nuxt@4.2.0" ∧
    canonicalUrl "nuxt" (some "4.2.0") =
      "https://npmx.dev/dependencies/nuxt/v/4.2.0" :=
  (C8_seo_strings "nuxt" "4.2.0").2.2 (by decide) (by decide)
